import Mathlib

/-!
Shallow embedding of the table-allocation engine of the
`django_restaurant_manager` repository
(`restaurant_manager/bookings/models.py` and `bookings/forms.py`).

Wall-clock times and dates are modelled as natural numbers (e.g. minutes
since midnight for times); the source only ever compares them with the
standard order, so any linearly ordered carrier is faithful.  A `Table`
carries its database identity and its `size` field; a `Booking` carries
the identities of the tables attached to it through the many-to-many
relation, its `date`, its `time` and its `end_time`.
-/

structure Table where
  id : Nat
  size : Nat
deriving DecidableEq, Repr

structure Booking where
  tableIds : List Nat
  date : Nat
  time : Nat
  end_time : Nat
deriving DecidableEq, Repr

/-- The filter condition of `models.py` line 94:
`table.booking_set.filter(Q(date=date, time__range=(time, end_time)) |
Q(date=date, end_time__range=(time, end_time)))`.
`booking_set` restricts to bookings whose many-to-many `table` field
contains this table; Django `__range=(a, b)` is the inclusive SQL
`BETWEEN`, i.e. `a <= x AND x <= b`. -/
def bookingMatches (date time end_time tid : Nat) (b : Booking) : Bool :=
  b.tableIds.contains tid &&
    ((b.date == date && decide (time ≤ b.time) && decide (b.time ≤ end_time)) ||
     (b.date == date && decide (time ≤ b.end_time) && decide (b.end_time ≤ end_time)))

/-- The availability loop of `find_table` (`models.py` lines 90-98): a table
is kept exactly when its filtered booking set is empty. -/
def available_tables (tables : List Table) (bookings : List Booking)
    (date time end_time : Nat) : List Table :=
  tables.filter fun t => (bookings.filter (bookingMatches date time end_time t.id)).isEmpty

/-- `sum([table.size for table in combination])` (`models.py` line 65). -/
def sum_sizes (ts : List Table) : Nat := (ts.map Table.size).sum

/-- `itertools.combinations(lst, 2)` (`models.py` line 64): all pairs of
entries at positions `i < j`, in lexicographic index order. -/
def combinations2 : List Table → List (List Table)
  | [] => []
  | t :: ts => ts.map (fun u => [t, u]) ++ combinations2 ts

/-- The sort key of `models.py` line 70: `lambda x: x.size`. -/
def size_le (a b : Table) : Prop := a.size ≤ b.size

instance : DecidableRel size_le := fun a b => Nat.decLe a.size b.size

instance : IsTotal Table size_le := ⟨fun a b => Nat.le_total a.size b.size⟩

instance : IsTrans Table size_le := ⟨fun _ _ _ => Nat.le_trans⟩

/-- `Restaurant.optimise` (`models.py` lines 50-72).  Python `list.sort` is a
stable sort, and a stable sort by a key is uniquely determined, so Mathlib's
stable `insertionSort` computes the same list; `bigger_tables[:1]` is
`take 1`; falling off the end of the function returns `None`. -/
def optimise (smaller_tables bigger_tables : List Table) (party : Nat) :
    Option (List Table) :=
  match (if smaller_tables.isEmpty then none
         else (combinations2 smaller_tables).find? fun c => sum_sizes c == party) with
  | some c => some c
  | none =>
      if bigger_tables.isEmpty then none
      else some ((List.insertionSort size_le bigger_tables).take 1)

/-- The selection loop of `find_table` (`models.py` lines 100-113), with the
`smaller_tables` and `bigger_tables` accumulators made explicit.  Python's
`for ... else` clause runs exactly when the loop finished without the exact
match return firing. -/
def find_loop (party : Nat) (opt : Bool) :
    List Table → List Table → List Table → Option (List Table)
  | [], smaller, bigger => if opt then optimise smaller bigger party else none
  | t :: ts, smaller, bigger =>
      if t.size == party then some [t]
      else if t.size < party then find_loop party opt ts (smaller ++ [t]) bigger
      else find_loop party opt ts smaller (bigger ++ [t])

/-- The allocation optimizer of the spec: the part of `find_table` that turns
the available tables and the party size into a selection
(`models.py` lines 100-113). -/
def select_tables (avail : List Table) (party : Nat) (opt : Bool) :
    Option (List Table) :=
  find_loop party opt avail [] []

/-- `Restaurant.find_table` (`models.py` lines 74-113) over a snapshot of the
restaurant's tables and of the bookings referencing them. -/
def find_table (tables : List Table) (bookings : List Booking)
    (date time end_time party : Nat) (opt : Bool) : Option (List Table) :=
  select_tables (available_tables tables bookings date time end_time) party opt

/-- The half-open interval overlap relation `[s1, e1) ∩ [s2, e2) ≠ ∅` the
specification states its no-double-booking invariant with. -/
def half_open_overlap (s1 e1 s2 e2 : Nat) : Prop := s1 < e2 ∧ s2 < e1

instance (s1 e1 s2 e2 : Nat) : Decidable (half_open_overlap s1 e1 s2 e2) :=
  inferInstanceAs (Decidable (_ ∧ _))

/-- `RestaurantForm.clean` (`forms.py` lines 41-48): raises a
`ValidationError` exactly when `close < open`. -/
def restaurant_form_clean (opening_time closing_time : Nat) :
    Except String Unit :=
  if closing_time < opening_time then
    Except.error "Closing time cannot be before opening time."
  else Except.ok ()

/-- The database state `find_table` reads: the restaurant's tables and the
booking store reached through `booking_set`. -/
structure DBState where
  tables : List Table
  bookings : List Booking
deriving DecidableEq, Repr

/-- The read `self.tables.all()` (`models.py` line 88) as an explicit state
transaction. -/
def db_all_tables (st : DBState) : List Table × DBState := (st.tables, st)

/-- The read `table.booking_set.filter(...)` (`models.py` line 94) as an
explicit state transaction. -/
def db_booking_filter (st : DBState) (tid date time end_time : Nat) :
    List Booking × DBState :=
  (st.bookings.filter (bookingMatches date time end_time tid), st)

/-- The availability loop of `find_table` with every database access
threaded through the state. -/
def avail_loop (date time end_time : Nat) :
    List Table → List Table → DBState → List Table × DBState
  | [], acc, st => (acc, st)
  | t :: ts, acc, st =>
      let (bs, st1) := db_booking_filter st t.id date time end_time
      if bs.isEmpty then avail_loop date time end_time ts (acc ++ [t]) st1
      else avail_loop date time end_time ts acc st1

/-- `Restaurant.find_table` with its database reads made explicit, returning
the selection together with the state it leaves behind. -/
def find_table_db (st : DBState) (date time end_time party : Nat)
    (opt : Bool) : Option (List Table) × DBState :=
  let (tables, st1) := db_all_tables st
  let (avail, st2) := avail_loop date time end_time tables [] st1
  (select_tables avail party opt, st2)

/-! ### Lemmas about `combinations2` -/

lemma combinations2_shape {l c : List Table} (h : c ∈ combinations2 l) :
    ∃ a b, c = [a, b] ∧ [a, b].Sublist l := by
  induction l with
  | nil => simp [combinations2] at h
  | cons t ts ih =>
      rw [combinations2, List.mem_append] at h
      rcases h with h | h
      · obtain ⟨u, hu, rfl⟩ := List.mem_map.mp h
        exact ⟨t, u, rfl, List.Sublist.cons₂ t (List.singleton_sublist.mpr hu)⟩
      · obtain ⟨a, b, rfl, hsub⟩ := ih h
        exact ⟨a, b, rfl, hsub.cons t⟩

lemma mem_combinations2_of_sublist {l : List Table} {a b : Table}
    (h : [a, b].Sublist l) : [a, b] ∈ combinations2 l := by
  induction l with
  | nil => simp at h
  | cons t ts ih =>
      rw [combinations2, List.mem_append]
      cases h with
      | cons _ h1 => exact Or.inr (ih h1)
      | cons₂ _ h1 =>
          exact Or.inl (List.mem_map.mpr ⟨b, List.singleton_sublist.mp h1, rfl⟩)

/-! ### Lemmas about `optimise` -/

lemma optimise_pair {smaller bigger : List Table} {party : Nat} {t1 t2 : Table}
    (hsub : [t1, t2].Sublist smaller) (hsum : t1.size + t2.size = party) :
    ∃ l, optimise smaller bigger party = some l ∧
      l.length = 2 ∧ sum_sizes l = party := by
  have hne : smaller.isEmpty = false := by
    cases smaller with
    | nil => simp at hsub
    | cons _ _ => rfl
  have hex : ∃ c ∈ combinations2 smaller, (sum_sizes c == party) = true :=
    ⟨[t1, t2], mem_combinations2_of_sublist hsub, by
      simp [sum_sizes]; omega⟩
  obtain ⟨c, hc⟩ := Option.isSome_iff_exists.mp (List.find?_isSome.mpr hex)
  refine ⟨c, ?_, ?_, ?_⟩
  · rw [optimise, hne]
    simp only [Bool.false_eq_true, if_false, hc]
  · obtain ⟨a, b, rfl, -⟩ := combinations2_shape (List.mem_of_find?_eq_some hc)
    rfl
  · simpa using List.find?_some hc

lemma optimise_no_pair_bigger {smaller bigger : List Table} {party : Nat}
    (hno : ∀ c ∈ combinations2 smaller, sum_sizes c ≠ party)
    (hbig : bigger ≠ []) :
    ∃ t rest, List.insertionSort size_le bigger = t :: rest ∧
      optimise smaller bigger party = some [t] := by
  have hfind : (combinations2 smaller).find? (fun c => sum_sizes c == party) = none :=
    List.find?_eq_none.mpr fun c hc => by
      simpa using hno c hc
  have hbe : bigger.isEmpty = false := by
    cases bigger with
    | nil => exact absurd rfl hbig
    | cons _ _ => rfl
  cases hsort : List.insertionSort size_le bigger with
  | nil =>
      have hperm := List.perm_insertionSort size_le bigger
      rw [hsort] at hperm
      exact absurd hperm.symm.eq_nil hbig
  | cons t rest =>
      refine ⟨t, rest, rfl, ?_⟩
      rw [optimise]
      cases smaller with
      | nil => simp [hbe, hsort, combinations2]
      | cons s ss => simp [hbe, hfind, hsort]

lemma optimise_some_spec {smaller bigger : List Table} {party : Nat}
    {res : List Table} (h : optimise smaller bigger party = some res) :
    (res ∈ combinations2 smaller ∧ sum_sizes res = party) ∨
      ∃ t, res = [t] ∧ t ∈ bigger := by
  rw [optimise] at h
  cases hfp : (if smaller.isEmpty then none
      else (combinations2 smaller).find? fun c => sum_sizes c == party) with
  | some c =>
      rw [hfp] at h
      have hcr : res = c := by simpa using h.symm
      subst hcr
      have hfind : (combinations2 smaller).find?
          (fun x => sum_sizes x == party) = some res := by
        by_cases he : smaller.isEmpty
        · rw [if_pos he] at hfp
          exact absurd hfp (by simp)
        · rw [if_neg he] at hfp
          exact hfp
      refine Or.inl ⟨List.mem_of_find?_eq_some hfind, ?_⟩
      simpa using List.find?_some hfind
  | none =>
      rw [hfp] at h
      by_cases hbe : bigger.isEmpty
      · simp [hbe] at h
      · simp only [hbe, if_false] at h
        cases hsort : List.insertionSort size_le bigger with
        | nil =>
            have hperm := List.perm_insertionSort size_le bigger
            rw [hsort] at hperm
            rw [hperm.symm.eq_nil] at hbe
            simp at hbe
        | cons t rest =>
            refine Or.inr ⟨t, ?_, ?_⟩
            · rw [hsort] at h
              simpa using h.symm
            · exact (List.perm_insertionSort size_le bigger).mem_iff.mp
                (by rw [hsort]; exact List.mem_cons_self t rest)

/-! ### Lemmas about the selection loop -/

lemma find_loop_exact {party : Nat} {opt : Bool} :
    ∀ {l : List Table} (smaller bigger : List Table),
      (∃ t ∈ l, t.size = party) →
      ∃ t, find_loop party opt l smaller bigger = some [t] ∧ t.size = party := by
  intro l
  induction l with
  | nil => intro _ _ h; simp at h
  | cons t ts ih =>
      intro smaller bigger h
      rw [find_loop]
      by_cases ht : (t.size == party) = true
      · exact ⟨t, by rw [if_pos ht], by simpa using ht⟩
      · have hts : ∃ u ∈ ts, u.size = party := by
          obtain ⟨u, hu, hus⟩ := h
          rcases List.mem_cons.mp hu with rfl | hmem
          · exact absurd (by simpa using hus) ht
          · exact ⟨u, hmem, hus⟩
        rw [if_neg ht]
        by_cases hlt : t.size < party
        · rw [if_pos hlt]
          exact ih (smaller ++ [t]) bigger hts
        · rw [if_neg hlt]
          exact ih smaller (bigger ++ [t]) hts

lemma find_loop_no_exact {party : Nat} {opt : Bool} :
    ∀ {l : List Table} (smaller bigger : List Table),
      (∀ t ∈ l, t.size ≠ party) →
      find_loop party opt l smaller bigger =
        if opt then
          optimise (smaller ++ l.filter fun t => decide (t.size < party))
            (bigger ++ l.filter fun t => decide (party < t.size)) party
        else none := by
  intro l
  induction l with
  | nil => intro smaller bigger _; simp [find_loop]
  | cons t ts ih =>
      intro smaller bigger h
      have ht : t.size ≠ party := h t (List.mem_cons_self t ts)
      have hts : ∀ u ∈ ts, u.size ≠ party := fun u hu => h u (List.mem_cons_of_mem t hu)
      rw [find_loop, if_neg (by simpa using ht)]
      by_cases hlt : t.size < party
      · have hnb : ¬party < t.size := Nat.lt_asymm hlt
        rw [if_pos hlt, ih (smaller ++ [t]) bigger hts]
        simp [List.filter_cons, hlt, hnb]
      · have hgt : party < t.size := Nat.lt_of_le_of_ne (Nat.not_lt.mp hlt) (Ne.symm ht)
        rw [if_neg hlt, ih smaller (bigger ++ [t]) hts]
        simp [List.filter_cons, hlt, hgt]

lemma find_loop_some_spec {party : Nat} {opt : Bool} :
    ∀ {l : List Table} (smaller bigger : List Table) {res : List Table},
      (∀ t ∈ bigger, party < t.size) →
      find_loop party opt l smaller bigger = some res →
      sum_sizes res = party ∨ ∃ t, res = [t] ∧ party < t.size := by
  intro l
  induction l with
  | nil =>
      intro smaller bigger res hbig h
      rw [find_loop] at h
      cases opt with
      | false => simp at h
      | true =>
          rw [if_pos rfl] at h
          rcases optimise_some_spec h with ⟨-, hsum⟩ | ⟨t, rfl, hmem⟩
          · exact Or.inl hsum
          · exact Or.inr ⟨t, rfl, hbig t hmem⟩
  | cons t ts ih =>
      intro smaller bigger res hbig h
      rw [find_loop] at h
      by_cases ht : (t.size == party) = true
      · rw [if_pos ht] at h
        have hres : res = [t] := by simpa using h.symm
        subst hres
        have hts : t.size = party := by simpa using ht
        exact Or.inl (by simp [sum_sizes, hts])
      · rw [if_neg ht] at h
        by_cases hlt : t.size < party
        · rw [if_pos hlt] at h
          exact ih (smaller ++ [t]) bigger hbig h
        · rw [if_neg hlt] at h
          refine ih smaller (bigger ++ [t]) ?_ h
          intro u hu
          rcases List.mem_append.mp hu with hmem | hmem
          · exact hbig u hmem
          · have hut : u = t := by simpa using hmem
            subst hut
            exact Nat.lt_of_le_of_ne (Nat.not_lt.mp hlt)
              (Ne.symm fun he => ht (by simpa using he))

lemma find_loop_none_or_nonempty {party : Nat} {opt : Bool} :
    ∀ {l : List Table} (smaller bigger : List Table),
      find_loop party opt l smaller bigger = none ∨
        ∃ res, find_loop party opt l smaller bigger = some res ∧ res ≠ [] := by
  intro l
  induction l with
  | nil =>
      intro smaller bigger
      rw [find_loop]
      cases opt with
      | false => exact Or.inl (by simp)
      | true =>
          rw [if_pos rfl]
          cases ho : optimise smaller bigger party with
          | none => exact Or.inl rfl
          | some res =>
              refine Or.inr ⟨res, rfl, ?_⟩
              rcases optimise_some_spec ho with ⟨hmem, -⟩ | ⟨t, rfl, -⟩
              · obtain ⟨a, b, rfl, -⟩ := combinations2_shape hmem
                simp
              · simp
  | cons t ts ih =>
      intro smaller bigger
      rw [find_loop]
      by_cases ht : (t.size == party) = true
      · rw [if_pos ht]
        exact Or.inr ⟨[t], rfl, by simp⟩
      · rw [if_neg ht]
        by_cases hlt : t.size < party
        · rw [if_pos hlt]
          exact ih (smaller ++ [t]) bigger
        · rw [if_neg hlt]
          exact ih smaller (bigger ++ [t])

/-! ### Lemmas about the stateful reading of the database -/

lemma avail_loop_state {date time end_time : Nat} :
    ∀ (l acc : List Table) (st : DBState),
      (avail_loop date time end_time l acc st).2 = st := by
  intro l
  induction l with
  | nil => intro acc st; rfl
  | cons t ts ih =>
      intro acc st
      rw [avail_loop]
      dsimp only [db_booking_filter]
      split
      · exact ih _ _
      · exact ih _ _

lemma find_table_db_eq (st : DBState) (date time end_time party : Nat)
    (opt : Bool) :
    find_table_db st date time end_time party opt =
      (select_tables (avail_loop date time end_time st.tables [] st).1 party opt,
        (avail_loop date time end_time st.tables [] st).2) := by
  rfl

/-! ### The claims -/

/-- Claim C1: the spec asserts that `find_table` never returns a table that
already has a booking on the same date whose half-open interval intersects
the requested one, so that successful allocations never double-book.  The
code violates this: its filter only tests whether an existing booking's
start or end lies inside the requested range, so a booking that strictly
contains the requested window is invisible.  Concretely, on a restaurant
with one table of size 4, a first allocation books 720-840; a second
request for 750-810 — whose half-open interval overlaps the first —
is then handed the same table again. -/
theorem claim_C1_double_booking :
    find_table [⟨1, 4⟩] [] 0 720 840 4 false = some [⟨1, 4⟩] ∧
    find_table [⟨1, 4⟩] [⟨[1], 0, 720, 840⟩] 0 750 810 4 false =
      some [⟨1, 4⟩] ∧
    (⟨[1], 0, 720, 840⟩ : Booking).tableIds.contains (⟨1, 4⟩ : Table).id = true ∧
    half_open_overlap 720 840 750 810 := by decide

/-- Claim C2 (counterexample): the claim states that a booking ending
exactly at `T` does not conflict with a new request starting exactly at `T`
and the table remains available.  In the code, Django's inclusive
`end_time__range=(time, end_time)` catches `b.end_time = time`, so the
table is excluded: with one table of size 4 and a booking 600-660, a
request for 660-720 sees no available table. -/
theorem claim_C2_boundary_counterexample :
    (⟨[1], 0, 600, 660⟩ : Booking).end_time = 660 ∧
    available_tables [⟨1, 4⟩] [⟨[1], 0, 600, 660⟩] 0 660 720 = [] := by decide

/-- Claim C2 (amended): the availability filter keeps a table if and only
if no existing booking referencing it on the same date has its start time
or its end time inside the closed interval from the requested start to the
requested end (inclusive on both bounds, not half-open). -/
theorem claim_C2_inclusive_filter (tables : List Table)
    (bookings : List Booking) (date time end_time : Nat) (t : Table) :
    t ∈ available_tables tables bookings date time end_time ↔
      t ∈ tables ∧ ∀ b ∈ bookings, t.id ∈ b.tableIds → b.date = date →
        ¬((time ≤ b.time ∧ b.time ≤ end_time) ∨
          (time ≤ b.end_time ∧ b.end_time ≤ end_time)) := by
  simp only [available_tables, List.mem_filter, List.isEmpty_iff,
    List.filter_eq_nil_iff, bookingMatches, Bool.and_eq_true, Bool.or_eq_true,
    decide_eq_true_eq, beq_iff_eq, List.elem_iff]
  constructor
  · rintro ⟨h1, h2⟩
    refine ⟨h1, fun b hb hid hdate => ?_⟩
    have := h2 b hb
    tauto
  · rintro ⟨h1, h2⟩
    refine ⟨h1, fun b hb => ?_⟩
    have := h2 b hb
    tauto

/-- Claim C3: whenever some available table's size equals the party size,
the selection returns exactly one table, of size equal to the party size,
for either value of the optimise flag. -/
theorem claim_C3_exact_match (avail : List Table) (party : Nat) (opt : Bool)
    (h : ∃ t ∈ avail, t.size = party) :
    ∃ t, select_tables avail party opt = some [t] ∧ t.size = party :=
  find_loop_exact [] [] h

theorem claim_C3_exact_match_witness :
    ∃ t, select_tables [⟨1, 4⟩, ⟨2, 8⟩] 8 true = some [t] ∧ t.size = 8 :=
  claim_C3_exact_match [⟨1, 4⟩, ⟨2, 8⟩] 8 true ⟨⟨2, 8⟩, by decide, rfl⟩

/-- Claim C4: with no exact-size table available and the optimise flag set,
if two distinct available tables each strictly smaller than the party size
have sizes summing exactly to it, the selection returns exactly two tables
whose sizes sum exactly to the party size. -/
theorem claim_C4_pair_sum (avail : List Table) (party : Nat)
    (hex : ∀ t ∈ avail, t.size ≠ party) (t1 t2 : Table)
    (hsub : [t1, t2].Sublist avail) (h1 : t1.size < party)
    (h2 : t2.size < party) (hsum : t1.size + t2.size = party) :
    ∃ l, select_tables avail party true = some l ∧ l.length = 2 ∧
      sum_sizes l = party := by
  have hsel : select_tables avail party true =
      optimise (avail.filter fun t => decide (t.size < party))
        (avail.filter fun t => decide (party < t.size)) party := by
    rw [select_tables, find_loop_no_exact [] [] hex]
    simp
  rw [hsel]
  refine optimise_pair ?_ hsum
  have hfe : [t1, t2].filter (fun t => decide (t.size < party)) = [t1, t2] := by
    simp [List.filter_cons, h1, h2]
  have hf := hsub.filter (fun t => decide (t.size < party))
  rw [hfe] at hf
  exact hf

theorem claim_C4_pair_sum_witness :
    ∃ l, select_tables [⟨1, 2⟩, ⟨2, 2⟩, ⟨3, 4⟩, ⟨4, 4⟩, ⟨5, 6⟩] 8 true =
      some l ∧ l.length = 2 ∧ sum_sizes l = 8 :=
  claim_C4_pair_sum [⟨1, 2⟩, ⟨2, 2⟩, ⟨3, 4⟩, ⟨4, 4⟩, ⟨5, 6⟩] 8 (by decide)
    ⟨1, 2⟩ ⟨5, 6⟩ (by decide) (by decide) (by decide) rfl

/-- Claim C5: with no exact-size table available and the optimise flag
false, the selection returns none, whatever else is available. -/
theorem claim_C5_unoptimised_none (avail : List Table) (party : Nat)
    (hex : ∀ t ∈ avail, t.size ≠ party) :
    select_tables avail party false = none := by
  rw [select_tables, find_loop_no_exact [] [] hex]
  simp

theorem claim_C5_unoptimised_none_witness :
    select_tables [⟨1, 2⟩, ⟨2, 6⟩, ⟨3, 10⟩] 8 false = none :=
  claim_C5_unoptimised_none [⟨1, 2⟩, ⟨2, 6⟩, ⟨3, 10⟩] 8 (by decide)

/-- Claim C6: with no exact-size table available, the optimise flag set, no
pair of distinct smaller tables summing exactly to the party size, and some
available table strictly bigger than the party size, the selection returns
exactly one table: a bigger one of minimal size among the bigger tables. -/
theorem claim_C6_smallest_bigger (avail : List Table) (party : Nat)
    (hex : ∀ t ∈ avail, t.size ≠ party)
    (hnopair : ∀ t1 t2 : Table, [t1, t2].Sublist avail → t1.size < party →
      t2.size < party → t1.size + t2.size ≠ party)
    (hbig : ∃ t ∈ avail, party < t.size) :
    ∃ t, select_tables avail party true = some [t] ∧ t ∈ avail ∧
      party < t.size ∧ ∀ u ∈ avail, party < u.size → t.size ≤ u.size := by
  have hsel : select_tables avail party true =
      optimise (avail.filter fun t => decide (t.size < party))
        (avail.filter fun t => decide (party < t.size)) party := by
    rw [select_tables, find_loop_no_exact [] [] hex]
    simp
  have hno : ∀ c ∈ combinations2 (avail.filter fun t => decide (t.size < party)),
      sum_sizes c ≠ party := by
    intro c hc
    obtain ⟨a, b, rfl, hsub⟩ := combinations2_shape hc
    have ha : a.size < party := by
      have hm := hsub.subset (List.mem_cons_self a [b])
      exact of_decide_eq_true (List.mem_filter.mp hm).2
    have hb : b.size < party := by
      have hm : b ∈ avail.filter fun t => decide (t.size < party) :=
        hsub.subset (by simp)
      exact of_decide_eq_true (List.mem_filter.mp hm).2
    have hsum := hnopair a b (hsub.trans (List.filter_sublist avail)) ha hb
    simpa [sum_sizes] using hsum
  have hbne : (avail.filter fun t => decide (party < t.size)) ≠ [] := by
    obtain ⟨t, ht, hts⟩ := hbig
    exact List.ne_nil_of_mem (List.mem_filter.mpr ⟨ht, by simpa using hts⟩)
  obtain ⟨t, rest, hsort, hopt⟩ := optimise_no_pair_bigger hno hbne
  have hperm := List.perm_insertionSort size_le
    (avail.filter fun t => decide (party < t.size))
  have htmem : t ∈ avail.filter fun t => decide (party < t.size) :=
    hperm.mem_iff.mp (by rw [hsort]; exact List.mem_cons_self t rest)
  refine ⟨t, by rw [hsel, hopt], (List.mem_filter.mp htmem).1,
    of_decide_eq_true (List.mem_filter.mp htmem).2, ?_⟩
  intro u hu hpu
  have humem : u ∈ avail.filter fun t => decide (party < t.size) :=
    List.mem_filter.mpr ⟨hu, by simpa using hpu⟩
  have husort := hperm.mem_iff.mpr humem
  rw [hsort] at husort
  rcases List.mem_cons.mp husort with rfl | hur
  · exact Nat.le_refl _
  · have hsorted := List.sorted_insertionSort size_le
      (avail.filter fun t => decide (party < t.size))
    rw [hsort] at hsorted
    exact List.rel_of_sorted_cons hsorted u hur

theorem claim_C6_smallest_bigger_witness :
    select_tables [⟨1, 10⟩, ⟨2, 12⟩] 8 true = some [⟨1, 10⟩] ∧
    ∃ t, select_tables [⟨1, 10⟩, ⟨2, 12⟩] 8 true = some [t] ∧
      t ∈ [(⟨1, 10⟩ : Table), ⟨2, 12⟩] ∧ 8 < t.size ∧
      ∀ u ∈ [(⟨1, 10⟩ : Table), ⟨2, 12⟩], 8 < u.size → t.size ≤ u.size :=
  ⟨by decide,
    claim_C6_smallest_bigger [⟨1, 10⟩, ⟨2, 12⟩] 8 (by decide)
      (fun t1 t2 hsub h1 h2 => by
        have hm : t1 ∈ [(⟨1, 10⟩ : Table), ⟨2, 12⟩] :=
          hsub.subset (List.mem_cons_self _ _)
        rcases List.mem_cons.mp hm with rfl | hm2
        · exact absurd h1 (by decide)
        · have ht1 : t1 = ⟨2, 12⟩ := by simpa using hm2
          subst ht1
          exact absurd h1 (by decide))
      ⟨⟨1, 10⟩, by decide, by decide⟩⟩

/-- Claim C7: the selection is a total function whose no-table outcome is
the ordinary value none, and a some result is never the empty list; in
particular an empty list of available tables yields none. -/
theorem claim_C7_none_or_nonempty (avail : List Table) (party : Nat)
    (opt : Bool) :
    (select_tables avail party opt = none ∨
      ∃ l, select_tables avail party opt = some l ∧ l ≠ []) ∧
    (avail = [] → select_tables avail party opt = none) := by
  refine ⟨find_loop_none_or_nonempty [] [], fun he => ?_⟩
  subst he
  cases opt <;> rfl

theorem claim_C7_none_or_nonempty_witness :
    select_tables [] 5 true = none :=
  (claim_C7_none_or_nonempty [] 5 true).2 rfl

/-- Claim C8 (counterexample): the claim states that restaurant creation is
rejected whenever the opening time is not strictly before the closing time,
equal times included.  The form's clean method only raises when
`close < open`, so equal opening and closing times pass validation. -/
theorem claim_C8_equal_times_counterexample :
    restaurant_form_clean 720 720 = Except.ok () ∧ ¬(720 < 720) :=
  ⟨rfl, by decide⟩

/-- Claim C8 (amended): restaurant creation is rejected with a validation
error exactly when the submitted closing time is strictly before the
opening time; equal opening and closing times are accepted. -/
theorem claim_C8_rejects_iff (opening_time closing_time : Nat) :
    (∃ e, restaurant_form_clean opening_time closing_time =
      Except.error e) ↔ closing_time < opening_time := by
  unfold restaurant_form_clean
  split
  · next h => exact ⟨fun _ => h, fun _ => ⟨_, rfl⟩⟩
  · next h => simp [h]

/-- Claim C9: `find_table` only reads the database: threading every access
through an explicit state, the state it returns is the one it was given,
and a second invocation with the same arguments against the state left by
the first returns the same result. -/
theorem claim_C9_pure_read (st : DBState) (date time end_time party : Nat)
    (opt : Bool) :
    (find_table_db st date time end_time party opt).2 = st ∧
    (find_table_db (find_table_db st date time end_time party opt).2
        date time end_time party opt).1 =
      (find_table_db st date time end_time party opt).1 := by
  have h2 : (find_table_db st date time end_time party opt).2 = st := by
    rw [find_table_db_eq]
    exact avail_loop_state _ _ _
  exact ⟨h2, by rw [h2]⟩

/-- Claim C10: whenever the selection returns a result, the sizes of the
returned tables sum to at least the party size; the sum is exactly the
party size unless the result is a single strictly bigger table. -/
theorem claim_C10_sufficiency (avail : List Table) (party : Nat) (opt : Bool)
    (l : List Table) (h : select_tables avail party opt = some l) :
    party ≤ sum_sizes l ∧
      (sum_sizes l = party ∨ ∃ t, l = [t] ∧ party < t.size) := by
  have hs := find_loop_some_spec [] [] (by simp) h
  refine ⟨?_, hs⟩
  rcases hs with hsum | ⟨t, rfl, hlt⟩
  · exact hsum.ge
  · simpa [sum_sizes] using Nat.le_of_lt hlt

theorem claim_C10_sufficiency_witness :
    3 ≤ sum_sizes [⟨1, 3⟩] ∧
      (sum_sizes [⟨1, 3⟩] = 3 ∨ ∃ t, [(⟨1, 3⟩ : Table)] = [t] ∧ 3 < t.size) :=
  claim_C10_sufficiency [⟨1, 3⟩] 3 false [⟨1, 3⟩] (by decide)
